import Mathlib

/-!
Verification of the Node/Tree data model of `src/backend/documents.py`.

Modelling conventions, chosen to mirror the Python source:

* A Python `str` is a `String`; the character slice `s[:n]` is `strTake`,
  and `len` on a string is `String.length` (a character count).
* `Metadata` (a `TypedDict`, i.e. a dict of string fields) is an association
  list of key/value pairs; `metadata.get(k)` is `Metadata.get`.
* Python truthiness of an optional string (the `if not page_content` test in
  `Document.create`) is `pyFalsy`: `None` and the empty string are falsy.
* The tiktoken encoder resolved at `Tree` construction is an abstract
  `Encoding` record carrying `encode : String → List Nat`; the source consumes
  it only through `len(self._encoding.encode(text))`.
* Mutable `Node` objects are modelled as a pure rose tree.  A node reference
  (as held by `Tree.leaf_nodes`) is the access path of the node from the root,
  a list of child indices.  Paths are stable identifiers because child lists
  are append-only and nodes are never re-parented.
* `collections.deque` is a `List` whose head is the left/front end.  The
  Python method `extendleft xs` appends the elements of `xs` on the left one
  at a time, so the block lands at the front in reversed order: it prepends
  `xs.reverse`.  The method `extend xs` appends `xs` on the right.
* The check `isinstance(dataset, Sequence)` in `Tree.add_nodes`: a `list` is a
  `Sequence` and so is a `str` (hence a bare `Query`), while a `Document`
  (a pydantic model) is not.
* The values `settings.PAGE_CONTENT_KEYS` and `settings.MAX_CHUNK_SIZE` are
  configuration consumed from outside the core (the `settings` module is not
  part of the source under verification); they appear as parameters.
-/

/-- `Query = str`. -/
abbrev Query := String

/-- The `Metadata` TypedDict: a dict with string keys and string values,
modelled as an association list. -/
abbrev Metadata := List (String × String)

/-- `metadata.get(k)`: the value stored under `k`, if any. -/
def Metadata.get (m : Metadata) (k : String) : Option String :=
  (m.find? (fun kv => kv.1 == k)).map (fun kv => kv.2)

/-- Python character slice `s[:n]`. -/
def strTake (s : String) (n : Nat) : String :=
  String.mk (s.data.take n)

/-- Python truthiness test `not x` on an optional string: `None` and the empty
string are falsy. -/
def pyFalsy : Option String → Bool
  | none => true
  | some s => s == ""

/-- A `Document`: metadata plus the derived primary text body. -/
structure Document where
  metadata : Metadata
  page_content : String
deriving DecidableEq

/-- The derivation loop of `Document.create`: walk `PAGE_CONTENT_KEYS` in
order and return the first metadata value that is truthy (present and
non-empty); the walrus test `if _v := metadata.get(k)` skips falsy values. -/
def derivePageContent (keys : List String) (m : Metadata) : Option String :=
  match keys with
  | [] => none
  | k :: ks =>
    match Metadata.get m k with
    | some v => if v == "" then derivePageContent ks m else some v
    | none => derivePageContent ks m

/-- The truncation step of `Document.create`: when the content is truthy and
longer than `MAX_CHUNK_SIZE` characters, keep the first `MAX_CHUNK_SIZE`
characters and append a literal ellipsis. -/
def truncateContent (maxChunkSize : Nat) (s : String) : String :=
  if s ≠ "" ∧ maxChunkSize < s.length then strTake s maxChunkSize ++ "..." else s

/-- `Document.create(metadata, page_content=None)`, parameterised by the
configuration values `settings.PAGE_CONTENT_KEYS` and
`settings.MAX_CHUNK_SIZE`.  The failing `assert page_content` is modelled as
`Except.error`. -/
def Document.create (pageContentKeys : List String) (maxChunkSize : Nat)
    (metadata : Metadata) (page_content : Option String) : Except String Document :=
  let pc1 : Option String :=
    if pyFalsy page_content then
      match derivePageContent pageContentKeys metadata with
      | some v => some v
      | none => page_content
    else page_content
  let pc2 : Option String := pc1.map (truncateContent maxChunkSize)
  match pc2 with
  | some s => if s == "" then .error "Can not find PAGE_CONTENT_KEYS" else .ok ⟨metadata, s⟩
  | none => .error "Can not find PAGE_CONTENT_KEYS"

/-- `NodeDataType = Union[Document, Query]`, made an explicit tagged union. -/
inductive NodeData where
  | doc (d : Document)
  | query (q : Query)
deriving DecidableEq

/-- The isinstance check `isinstance(data, Document)`. -/
def NodeData.isDocument : NodeData → Bool
  | .doc _ => true
  | .query _ => false

/-- A tree `Node`: payload, ordered children, soft-deletion flag.  The
`parent` back-pointer of the source is implicit in the tree shape. -/
inductive Node where
  | mk (data : NodeData) (child_nodes : List Node) (deleted : Bool)

/-- The `data` field of a node. -/
def Node.data : Node → NodeData
  | .mk d _ _ => d

/-- The `child_nodes` field of a node. -/
def Node.child_nodes : Node → List Node
  | .mk _ cs _ => cs

/-- The `deleted` field of a node. -/
def Node.deleted : Node → Bool
  | .mk _ _ del => del

/-- The `node_type` property: the string the Python property returns, derived
from `data` by an isinstance check. -/
def Node.node_type (n : Node) : String :=
  match n.data with
  | .doc _ => "Document"
  | .query _ => "Query"

/-- `Node.add_child_nodes(dataset)`: create one node per dataset item, in
order, each with default fields (no children, not deleted), and extend the
child list on the right. -/
def Node.add_child_nodes (n : Node) (dataset : List NodeData) : Node :=
  .mk n.data (n.child_nodes ++ dataset.map (fun d => .mk d [] false)) n.deleted

mutual

/-- `Node.all_nodes()`: the node itself, then each child subtree in order. -/
def Node.all_nodes : Node → List Node
  | .mk d cs del => .mk d cs del :: allNodesList cs

/-- The loop `for node in self.child_nodes: nodes.extend(node.all_nodes())`. -/
def allNodesList : List Node → List Node
  | [] => []
  | c :: cs => Node.all_nodes c ++ allNodesList cs

end

/-- `Node.all_documents()`: the `data` of those nodes of `all_nodes()` whose
`node_type` is Document and whose `deleted` flag is `False`, in
`all_nodes()` order. -/
def Node.all_documents (n : Node) : List NodeData :=
  (n.all_nodes.filter (fun m => m.node_type == "Document" && m.deleted == false)).map Node.data

/-- `Node.delete()`: soft delete, sets the flag only. -/
def Node.delete : Node → Node
  | .mk d cs _ => .mk d cs true

/-- A stable reference to a node: its access path from the root, as a list of
child indices. -/
abbrev NodePath := List Nat

/-- Resolve a path to the node it references, if the path is valid. -/
def Node.getAt : Node → NodePath → Option Node
  | n, [] => some n
  | n, i :: p =>
    match n.child_nodes[i]? with
    | some c => c.getAt p
    | none => none

/-- Apply `f` to the node referenced by `p` (identity when `p` is invalid),
mirroring an in-place mutation of that node object. -/
def Node.updateAt (f : Node → Node) : Node → NodePath → Node
  | n, [] => f n
  | .mk d cs del, i :: p =>
    match cs[i]? with
    | some c => .mk d (cs.set i (Node.updateAt f c p)) del
    | none => .mk d cs del

/-- The tiktoken `Encoding` resolved once at `Tree` construction; the source
uses only the length of `encode(text)`. -/
structure Encoding where
  encode : String → List Nat

/-- The runtime argument of `Tree.add_nodes`: either a bare item or a list of
items (the source normalises with an isinstance check, so both occur). -/
inductive DatasetArg where
  | single (d : NodeData)
  | many (ds : List NodeData)

/-- The normalisation `if not isinstance(dataset, Sequence): dataset = [dataset]`
followed by iteration.  A bare `Document` is not a `Sequence`, so it is
wrapped into a one-element list.  A bare `Query` is a `str`, which IS a
`Sequence`, so it is NOT wrapped; iterating it yields its characters, each a
one-character string, i.e. a one-character Query. -/
def normalizeDataset : DatasetArg → List NodeData
  | .many ds => ds
  | .single (.doc d) => [.doc d]
  | .single (.query q) => q.data.map (fun c => .query (String.mk [c]))

/-- `documents = [data for data in dataset if isinstance(data, Document)]`. -/
def datasetDocuments (ds : List NodeData) : List Document :=
  ds.filterMap (fun d => match d with | .doc x => some x | .query _ => none)

/-- The number of Document items in the argument as passed by the caller. -/
def DatasetArg.docCount : DatasetArg → Nat
  | .single d => if d.isDocument then 1 else 0
  | .many ds => (ds.filter NodeData.isDocument).length

namespace Docs

/-- The `Tree` state: root node, token counter, leaf deque (a list whose head
is the left/front end, holding node references as paths), document counter,
and the encoder resolved at construction. -/
structure Tree where
  root : Node
  tokens : Nat := 0
  leaf_nodes : List NodePath := []
  doc_node_num : Nat := 0
  encoding : Encoding

/-- The references `parent.child_nodes` pushed onto the deque, as paths: one
per child of the node `n` sitting at `parent`, in child order. -/
def childPaths (parent : NodePath) (n : Node) : List NodePath :=
  (List.range n.child_nodes.length).map (fun i => parent ++ [i])

/-- `Tree.add_nodes(parent, dataset)`.  The parent reference is a path; on an
invalid path the structural update and the deque push are vacuous while the
counters are still updated, matching the source, whose counter updates do not
consult the tree.  `extendleft` prepends the reversed block, `extend`
appends. -/
def Tree.add_nodes (t : Tree) (parent : NodePath) (dataset : DatasetArg) : Tree :=
  let ds := normalizeDataset dataset
  let root1 := t.root.updateAt (fun n => n.add_child_nodes ds) parent
  let pushed : List NodePath :=
    match root1.getAt parent with
    | some pn => childPaths parent pn
    | none => []
  let documents := datasetDocuments ds
  if documents.isEmpty then
    { t with root := root1, leaf_nodes := t.leaf_nodes ++ pushed }
  else
    { t with
      root := root1
      leaf_nodes := pushed.reverse ++ t.leaf_nodes
      doc_node_num := t.doc_node_num + documents.length
      tokens := t.tokens +
        (t.encoding.encode (String.join (documents.map Document.page_content))).length }

/-- One externally driven mutation: a `Tree.add_nodes` call, or a
`Node.delete` call on the node referenced by a path. -/
inductive TreeOp where
  | addNodes (parent : NodePath) (dataset : DatasetArg)
  | deleteAt (path : NodePath)

/-- Apply one operation to the tree state. -/
def Tree.step (t : Tree) : TreeOp → Tree
  | .addNodes p ds => t.add_nodes p ds
  | .deleteAt p => { t with root := t.root.updateAt Node.delete p }

/-- Apply a list of operations in order. -/
def Tree.run (t : Tree) : List TreeOp → Tree
  | [] => t
  | op :: ops => (t.step op).run ops

/-- The number of Document items an operation passes to `add_nodes`. -/
def TreeOp.docCount : TreeOp → Nat
  | .addNodes _ ds => ds.docCount
  | .deleteAt _ => 0

end Docs

open Docs

/-- A concrete document used in witnesses and counterexamples. -/
def doc1 : Document := ⟨[("content", "hello world")], "hello world"⟩

/-- A concrete childless root node. -/
def sampleRoot : Node := .mk (.query "root") [] false

/-- A deterministic test encoder: one token per character. -/
def charCountEncoding : Encoding := ⟨fun s => s.data.map Char.toNat⟩

/-- A freshly constructed tree over `sampleRoot`. -/
def sampleTree : Tree := { root := sampleRoot, encoding := charCountEncoding }

/-- A root with two pre-existing query children, named A and B. -/
def sampleRootAB : Node :=
  .mk (.query "root") [.mk (.query "A") [] false, .mk (.query "B") [] false] false

/-- A tree over `sampleRootAB`. -/
def sampleTreeAB : Tree := { root := sampleRootAB, encoding := charCountEncoding }

/-- A root with one document child, used when exercising soft deletion. -/
def sampleRootDoc : Node := .mk (.query "root") [.mk (.doc doc1) [] false] false

/-! ### Helper lemmas about traversal, paths and updates -/

theorem allNodesList_eq (cs : List Node) :
    allNodesList cs = (cs.map Node.all_nodes).flatten := by
  induction cs with
  | nil => rfl
  | cons c cs ih => simp [allNodesList, ih]

theorem all_nodes_eq (n : Node) :
    n.all_nodes = n :: (n.child_nodes.map Node.all_nodes).flatten := by
  cases n with
  | mk d cs del => simp [Node.all_nodes, allNodesList_eq, Node.child_nodes]

theorem getElem?_set_of_getElem? {α : Type} (l : List α) (i : Nat) (a c : α)
    (h : l[i]? = some c) : (l.set i a)[i]? = some a := by
  rw [List.getElem?_set_self', h]
  rfl

theorem getAt_updateAt (f : Node → Node) (p : NodePath) :
    ∀ (r n : Node), r.getAt p = some n → (r.updateAt f p).getAt p = some (f n) := by
  induction p with
  | nil =>
    intro r n h
    simp [Node.getAt] at h
    subst h
    cases r with
    | mk d cs del => rfl
  | cons i p ih =>
    intro r n h
    cases r with
    | mk d cs del =>
      simp only [Node.getAt, Node.child_nodes] at h
      cases hc : cs[i]? with
      | none => rw [hc] at h; simp at h
      | some c =>
        rw [hc] at h
        simp only [Node.updateAt, hc, Node.getAt, Node.child_nodes,
          getElem?_set_of_getElem? cs i (Node.updateAt f c p) c hc]
        exact ih c n h

theorem mem_all_nodes_of_getAt (p : NodePath) :
    ∀ (r n : Node), r.getAt p = some n → n ∈ r.all_nodes := by
  induction p with
  | nil =>
    intro r n h
    simp [Node.getAt] at h
    subst h
    rw [all_nodes_eq]
    exact List.mem_cons_self _ _
  | cons i p ih =>
    intro r n h
    cases r with
    | mk d cs del =>
      simp only [Node.getAt, Node.child_nodes] at h
      cases hc : cs[i]? with
      | none => rw [hc] at h; simp at h
      | some c =>
        rw [hc] at h
        have hcm : c ∈ cs := by
          obtain ⟨hlt, heq⟩ := List.getElem?_eq_some_iff.mp hc
          exact heq ▸ List.getElem_mem hlt
        rw [all_nodes_eq]
        refine List.mem_cons_of_mem _ ?_
        rw [List.mem_flatten]
        exact ⟨c.all_nodes, List.mem_map_of_mem _ hcm, ih c n h⟩

theorem add_child_nodes_child_nodes (n : Node) (ds : List NodeData) :
    (n.add_child_nodes ds).child_nodes = n.child_nodes ++ ds.map (fun d => .mk d [] false) :=
  rfl

theorem childPaths_add_child_nodes (p : NodePath) (parent : Node) (ds : List NodeData) :
    childPaths p (parent.add_child_nodes ds) =
      (List.range (parent.child_nodes.length + ds.length)).map (fun i => p ++ [i]) := by
  simp [childPaths, add_child_nodes_child_nodes]

theorem datasetDocuments_length_filter (ds : List NodeData) :
    (datasetDocuments ds).length = (ds.filter NodeData.isDocument).length := by
  induction ds with
  | nil => rfl
  | cons d ds ih =>
    cases d <;> simp [datasetDocuments, List.filterMap_cons, NodeData.isDocument] at * <;>
      simpa [datasetDocuments] using ih

theorem datasetDocuments_queries (l : List Char) :
    datasetDocuments (l.map (fun c => NodeData.query (String.mk [c]))) = [] := by
  induction l with
  | nil => rfl
  | cons c l ih => simp [datasetDocuments, List.filterMap_cons, ih]

theorem docCount_eq (a : DatasetArg) :
    (datasetDocuments (normalizeDataset a)).length = a.docCount := by
  cases a with
  | many ds => simp [normalizeDataset, DatasetArg.docCount, datasetDocuments_length_filter ds]
  | single d =>
    cases d with
    | doc x => rfl
    | query q =>
      simp [normalizeDataset, DatasetArg.docCount, NodeData.isDocument,
        datasetDocuments_queries q.data]

theorem add_nodes_counters (t : Docs.Tree) (p : NodePath) (a : DatasetArg) :
    (t.add_nodes p a).doc_node_num =
      t.doc_node_num + (datasetDocuments (normalizeDataset a)).length ∧
    (t.add_nodes p a).tokens =
      (if datasetDocuments (normalizeDataset a) = [] then t.tokens
       else t.tokens + (t.encoding.encode
         (String.join ((datasetDocuments (normalizeDataset a)).map Document.page_content))).length) := by
  by_cases hd : datasetDocuments (normalizeDataset a) = [] <;>
    simp [Docs.Tree.add_nodes, hd, List.isEmpty_iff, List.isEmpty_eq_false]

theorem add_nodes_structure (t : Docs.Tree) (p : NodePath) (a : DatasetArg) (parent : Node)
    (hp : t.root.getAt p = some parent) :
    (t.add_nodes p a).root =
      t.root.updateAt (fun n => n.add_child_nodes (normalizeDataset a)) p ∧
    (t.add_nodes p a).leaf_nodes =
      (if datasetDocuments (normalizeDataset a) = []
       then t.leaf_nodes ++
         (List.range (parent.child_nodes.length + (normalizeDataset a).length)).map
           (fun i => p ++ [i])
       else ((List.range (parent.child_nodes.length + (normalizeDataset a).length)).map
           (fun i => p ++ [i])).reverse ++ t.leaf_nodes) := by
  have hg := getAt_updateAt (fun n => n.add_child_nodes (normalizeDataset a)) p t.root parent hp
  by_cases hd : datasetDocuments (normalizeDataset a) = [] <;>
    simp [Docs.Tree.add_nodes, hd, List.isEmpty_iff, List.isEmpty_eq_false, hg,
      childPaths_add_child_nodes]

/-! ### Claim theorems -/

/-- C1 (counterexample): for a fresh root with no children and the dataset
[doc1, query1], the two new children (references [0] and [1]) end up at the
front of `leaf_nodes` in the order [[1], [0]], not the claimed order
[[0], [1]]: `deque.extendleft` reverses the block it pushes. -/
theorem add_nodes_front_order_counterexample :
    (sampleTree.add_nodes [] (.many [.doc doc1, .query "q1"])).leaf_nodes = [[1], [0]] ∧
    (sampleTree.add_nodes [] (.many [.doc doc1, .query "q1"])).leaf_nodes ≠ [[0], [1]] := by
  constructor
  · decide
  · decide

/-- C1 (amended): when the dataset contains at least one Document, all of the
children of the parent (the full current child list after attachment, as the
paths `p ++ [i]` for `i` below the new child count) are pushed onto the
left/front end of `leaf_nodes`, but in reversed order among themselves, the
last child frontmost, by the semantics of `deque.extendleft`. -/
theorem add_nodes_doc_front_push (t : Docs.Tree) (p : NodePath) (a : DatasetArg)
    (parent : Node) (hp : t.root.getAt p = some parent)
    (hd : datasetDocuments (normalizeDataset a) ≠ []) :
    (t.add_nodes p a).leaf_nodes =
      ((List.range (parent.child_nodes.length + (normalizeDataset a).length)).map
          (fun i => p ++ [i])).reverse ++ t.leaf_nodes := by
  have h := (add_nodes_structure t p a parent hp).2
  rw [if_neg hd] at h
  exact h

/-- C1 (witness): the amended theorem applied to the concrete example. -/
theorem add_nodes_doc_front_push_witness :
    (sampleTree.add_nodes [] (.many [.doc doc1, .query "q1"])).leaf_nodes =
      ((List.range (0 + 2)).map (fun i => ([] : NodePath) ++ [i])).reverse ++ [] :=
  add_nodes_doc_front_push sampleTree [] (.many [.doc doc1, .query "q1"]) sampleRoot rfl
    (by decide)

/-- C2 (code bug witnessed): a bare Query is a `str`, hence a Python
`Sequence`, so the normalisation does not wrap it; `add_nodes(parent, "ab")`
creates two children, with data "a" and "b", instead of one child with data
"ab".  A bare Document is wrapped into a one-element list as the claim
states. -/
theorem add_nodes_single_query_splits_chars :
    ((sampleTree.add_nodes [] (.single (.query "ab"))).root.getAt []).map
        (fun n => n.child_nodes.map Node.data) = some [.query "a", .query "b"] ∧
    normalizeDataset (.single (.query "ab")) ≠ [.query "ab"] ∧
    normalizeDataset (.single (.doc doc1)) = [.doc doc1] := by
  refine ⟨by decide, by decide, rfl⟩

/-- C5: when the dataset contains no Document, the full current child list of
the parent (pre-existing children and the new query nodes, as paths) is
pushed onto the right/back end of `leaf_nodes` in order, and `tokens` and
`doc_node_num` are unchanged. -/
theorem add_nodes_query_back_push (t : Docs.Tree) (p : NodePath) (a : DatasetArg)
    (parent : Node) (hp : t.root.getAt p = some parent)
    (hq : datasetDocuments (normalizeDataset a) = []) :
    (t.add_nodes p a).leaf_nodes =
      t.leaf_nodes ++
        (List.range (parent.child_nodes.length + (normalizeDataset a).length)).map
          (fun i => p ++ [i]) ∧
    (t.add_nodes p a).tokens = t.tokens ∧
    (t.add_nodes p a).doc_node_num = t.doc_node_num := by
  refine ⟨?_, ?_, ?_⟩
  · have h := (add_nodes_structure t p a parent hp).2
    rw [if_pos hq] at h
    exact h
  · have h := (add_nodes_counters t p a).2
    rw [if_pos hq] at h
    exact h
  · have h := (add_nodes_counters t p a).1
    rw [hq] at h
    simpa using h

/-- C5 (witness): the theorem applied to a root with children [A, B] and a
query-only dataset. -/
theorem add_nodes_query_back_push_witness :
    (sampleTreeAB.add_nodes [] (.many [.query "q2"])).leaf_nodes =
      [] ++ (List.range (2 + 1)).map (fun i => ([] : NodePath) ++ [i]) ∧
    (sampleTreeAB.add_nodes [] (.many [.query "q2"])).tokens = sampleTreeAB.tokens ∧
    (sampleTreeAB.add_nodes [] (.many [.query "q2"])).doc_node_num =
      sampleTreeAB.doc_node_num :=
  add_nodes_query_back_push sampleTreeAB [] (.many [.query "q2"]) sampleRootAB rfl (by decide)

theorem count_eq_one_of_nodup_mem {α : Type _} [BEq α] [LawfulBEq α] (l : List α) (a : α) :
    l.Nodup → a ∈ l → l.count a = 1 := by
  induction l with
  | nil => intro _ ha; cases ha
  | cons x xs ih =>
    intro hn ha
    rw [List.count_cons]
    by_cases hax : a = x
    · subst hax
      have hx : a ∉ xs := (List.nodup_cons.mp hn).1
      have h0 : xs.count a = 0 := List.count_eq_zero.mpr hx
      simp [h0]
    · have hmem : a ∈ xs := by
        rcases List.mem_cons.mp ha with h | h
        · exact absurd h hax
        · exact h
      have h1 := ih (List.nodup_cons.mp hn).2 hmem
      have hbe : (x == a) = false := by
        simp only [beq_eq_false_iff_ne]
        exact fun he => hax he.symm
      simp [h1, hbe]

theorem count_map_path_range (p : NodePath) (N i : Nat) (hi : i < N) :
    (((List.range N).map (fun j => p ++ [j])).count (p ++ [i])) = 1 := by
  apply count_eq_one_of_nodup_mem
  · refine List.Nodup.map ?_ (List.nodup_range N)
    intro x y hxy
    simpa using List.append_cancel_left hxy
  · exact List.mem_map_of_mem _ (List.mem_range.mpr hi)

/-- C10: every `add_nodes` call on a parent pushes the full current child
list, so the reference of a pre-existing child of that parent gains exactly
one more occurrence in `leaf_nodes`; with no external draining, references
accumulate and may occur several times. -/
theorem leaf_nodes_duplicate_occurrence (t : Docs.Tree) (p : NodePath) (a : DatasetArg)
    (parent : Node) (i : Nat) (hp : t.root.getAt p = some parent)
    (hi : i < parent.child_nodes.length) :
    ((t.add_nodes p a).leaf_nodes).count (p ++ [i]) =
      t.leaf_nodes.count (p ++ [i]) + 1 := by
  have h := (add_nodes_structure t p a parent hp).2
  have hcount : ((List.range (parent.child_nodes.length + (normalizeDataset a).length)).map
      (fun j => p ++ [j])).count (p ++ [i]) = 1 :=
    count_map_path_range p _ i (by omega)
  by_cases hd : datasetDocuments (normalizeDataset a) = []
  · rw [if_pos hd] at h
    rw [h, List.count_append, hcount]
  · rw [if_neg hd] at h
    rw [h, List.count_append, List.count_reverse, hcount]
    omega

/-- C10 (witness): the theorem applied to a parent with a pre-existing child. -/
theorem leaf_nodes_duplicate_occurrence_witness :
    ((sampleTreeAB.add_nodes [] (.many [.query "q2"])).leaf_nodes).count
        (([] : NodePath) ++ [0]) =
      sampleTreeAB.leaf_nodes.count (([] : NodePath) ++ [0]) + 1 :=
  leaf_nodes_duplicate_occurrence sampleTreeAB [] (.many [.query "q2"]) sampleRootAB 0 rfl
    (by decide)

/-- The effect of one step on the document counter. -/
theorem step_doc_node_num (t : Docs.Tree) (op : TreeOp) :
    (t.step op).doc_node_num = t.doc_node_num + op.docCount := by
  cases op with
  | addNodes p a =>
    have h := (add_nodes_counters t p a).1
    rw [docCount_eq] at h
    exact h
  | deleteAt p => rfl

/-- One step never shrinks the token counter. -/
theorem step_tokens_mono (t : Docs.Tree) (op : TreeOp) : t.tokens ≤ (t.step op).tokens := by
  cases op with
  | addNodes p a =>
    show t.tokens ≤ (t.add_nodes p a).tokens
    have h := (add_nodes_counters t p a).2
    by_cases hd : datasetDocuments (normalizeDataset a) = []
    · rw [if_pos hd] at h; omega
    · rw [if_neg hd] at h; omega
  | deleteAt p => exact Nat.le_refl _

/-- Running a list of operations adds the per-operation document counts. -/
theorem run_doc_node_num (ops : List TreeOp) :
    ∀ t : Docs.Tree,
      (t.run ops).doc_node_num = t.doc_node_num + (ops.map TreeOp.docCount).sum := by
  induction ops with
  | nil => intro t; simp [Docs.Tree.run]
  | cons op ops ih =>
    intro t
    rw [Docs.Tree.run, ih, step_doc_node_num]
    simp
    omega

/-- C4: after any interleaving of `add_nodes` and `delete` operations on a
fresh tree, `doc_node_num` equals the total number of Document items ever
passed; `tokens` and `doc_node_num` never decrease under any single
operation; a delete operation changes neither counter. -/
theorem accounting_monotone :
    (∀ (r : Node) (e : Encoding) (ops : List TreeOp),
        (Docs.Tree.run { root := r, encoding := e } ops).doc_node_num =
          (ops.map TreeOp.docCount).sum) ∧
    (∀ (t : Docs.Tree) (op : TreeOp),
        t.tokens ≤ (t.step op).tokens ∧ t.doc_node_num ≤ (t.step op).doc_node_num) ∧
    (∀ (t : Docs.Tree) (p : NodePath),
        (t.step (.deleteAt p)).tokens = t.tokens ∧
        (t.step (.deleteAt p)).doc_node_num = t.doc_node_num) := by
  refine ⟨?_, ?_, ?_⟩
  · intro r e ops
    rw [run_doc_node_num]
    simp
  · intro t op
    refine ⟨step_tokens_mono t op, ?_⟩
    rw [step_doc_node_num]
    omega
  · intro t p
    exact ⟨rfl, rfl⟩

/-- C3: with at least one Document in the dataset, `tokens` grows by exactly
the encoder token count of the concatenation, in dataset order, of the page
contents of the added Documents; Query items contribute nothing, so for a
dataset [doc, query] the increase is the count for the page content of the
document alone. -/
theorem add_nodes_tokens_concat (t : Docs.Tree) (p : NodePath) (a : DatasetArg)
    (hd : datasetDocuments (normalizeDataset a) ≠ []) :
    (t.add_nodes p a).tokens =
      t.tokens + (t.encoding.encode
        (String.join ((datasetDocuments (normalizeDataset a)).map
          Document.page_content))).length ∧
    ∀ (d : Document) (q : Query),
      (t.add_nodes p (.many [.doc d, .query q])).tokens =
        t.tokens + (t.encoding.encode d.page_content).length := by
  constructor
  · have h := (add_nodes_counters t p a).2
    rw [if_neg hd] at h
    exact h
  · intro d q
    have h := (add_nodes_counters t p (.many [.doc d, .query q])).2
    rw [if_neg (by simp [normalizeDataset, datasetDocuments, List.filterMap_cons])] at h
    exact h

/-- C3 (witness): the theorem applied with the one-token-per-character
encoder. -/
theorem add_nodes_tokens_concat_witness :
    (sampleTree.add_nodes [] (.many [.doc doc1, .query "q1"])).tokens =
      sampleTree.tokens + (charCountEncoding.encode doc1.page_content).length :=
  (add_nodes_tokens_concat sampleTree [] (.many [.doc doc1, .query "q1"]) (by decide)).2
    doc1 "q1"

/-- C7: `all_nodes` returns the node itself followed by the concatenation, in
child order, of the `all_nodes` of each child (pre-order, depth-first, parent
before children); the head of the result is the node itself.  The function is
a pure function of the tree shape in this model, so repeated calls without
mutation are equal by reflexivity. -/
theorem all_nodes_preorder :
    ∀ n : Node, n.all_nodes = n :: (n.child_nodes.map Node.all_nodes).flatten ∧
      n.all_nodes.head? = some n := by
  intro n
  refine ⟨all_nodes_eq n, ?_⟩
  rw [all_nodes_eq n]
  rfl

/-- C6: `all_documents` is exactly the data of the non-deleted Document nodes
of `all_nodes`, in the same pre-order; after `delete()` on the node at a
valid path the now-deleted node is still a member of `all_nodes`, its flag is
true, and every element of `all_documents` comes from a node whose flag is
false, so the deleted node no longer contributes. -/
theorem all_documents_filter_and_delete (r : Node) (p : NodePath) (m : Node)
    (h : r.getAt p = some m) :
    (∀ n : Node, n.all_documents =
        (n.all_nodes.filter
          (fun x => x.node_type == "Document" && x.deleted == false)).map Node.data) ∧
    Node.delete m ∈ (r.updateAt Node.delete p).all_nodes ∧
    (Node.delete m).deleted = true ∧
    (∀ (n : Node) (x : NodeData), x ∈ n.all_documents →
        ∃ nd, nd ∈ n.all_nodes ∧ nd.node_type = "Document" ∧ nd.deleted = false ∧
          nd.data = x) := by
  refine ⟨fun n => rfl, ?_, ?_, ?_⟩
  · exact mem_all_nodes_of_getAt p _ _ (getAt_updateAt Node.delete p r m h)
  · cases m with
    | mk d cs del => rfl
  · intro n x hx
    unfold Node.all_documents at hx
    obtain ⟨nd, hnd, hdata⟩ := List.mem_map.mp hx
    obtain ⟨hmem, hpred⟩ := List.mem_filter.mp hnd
    have hb := Bool.and_eq_true_iff.mp hpred
    refine ⟨nd, hmem, eq_of_beq hb.1, ?_, hdata⟩
    have := hb.2
    simpa using this

/-- C6 (witness): deleting the document child of `sampleRootDoc`. -/
theorem all_documents_filter_and_delete_witness :
    Node.delete (.mk (.doc doc1) [] false) ∈
      (sampleRootDoc.updateAt Node.delete [0]).all_nodes ∧
    (Node.delete (.mk (.doc doc1) [] false)).deleted = true :=
  ⟨(all_documents_filter_and_delete sampleRootDoc [0] (.mk (.doc doc1) [] false) rfl).2.1,
   (all_documents_filter_and_delete sampleRootDoc [0] (.mk (.doc doc1) [] false) rfl).2.2.1⟩

/-- The derivation loop only ever returns non-empty content. -/
theorem derivePageContent_ne_empty (keys : List String) (m : Metadata) :
    ∀ v, derivePageContent keys m = some v → v ≠ "" := by
  induction keys with
  | nil => intro v h; simp [derivePageContent] at h
  | cons k ks ih =>
    intro v h
    rw [derivePageContent] at h
    cases hg : Metadata.get m k with
    | none =>
      simp only [hg] at h
      exact ih v h
    | some w =>
      simp only [hg] at h
      by_cases hw : (w == "") = true
      · rw [if_pos hw] at h
        exact ih v h
      · rw [if_neg hw] at h
        injection h with h1
        subst h1
        simpa using hw

/-- Truncation never turns non-empty content into empty content. -/
theorem truncateContent_ne_empty (mc : Nat) (s : String) (h : s ≠ "") :
    truncateContent mc s ≠ "" := by
  unfold truncateContent
  by_cases hc : s ≠ "" ∧ mc < s.length
  · rw [if_pos hc]
    intro he
    have hlen : (strTake s mc ++ "...").length = 0 := by rw [he]; rfl
    rw [String.length_append] at hlen
    have h3 : ("..." : String).length = 3 := rfl
    omega
  · rw [if_neg hc]
    exact h

/-- When the argument is falsy and derivation succeeds, `create` returns the
derived (possibly truncated) content. -/
theorem create_ok_of_derive (keys : List String) (mc : Nat) (m : Metadata)
    (pc : Option String) (hf : pyFalsy pc = true) :
    ∀ v, derivePageContent keys m = some v →
      Document.create keys mc m pc = .ok ⟨m, truncateContent mc v⟩ := by
  intro v hv
  have hne := derivePageContent_ne_empty keys m v hv
  have htr := truncateContent_ne_empty mc v hne
  simp [Document.create, hf, hv, htr]

/-- When the argument is falsy and derivation fails, `create` fails. -/
theorem create_error_of_none (keys : List String) (mc : Nat) (m : Metadata)
    (pc : Option String) (hf : pyFalsy pc = true)
    (hd : derivePageContent keys m = none) :
    Document.create keys mc m pc = .error "Can not find PAGE_CONTENT_KEYS" := by
  cases pc with
  | none => simp [Document.create, hd]
  | some s =>
    have hs : s = "" := by simpa [pyFalsy] using hf
    subst hs
    simp [Document.create, pyFalsy, hd, truncateContent]

/-- A truthy explicit argument bypasses derivation: the result depends only on
the argument (truncated), never on the metadata. -/
theorem create_ok_of_explicit (keys : List String) (mc : Nat) (m : Metadata)
    (s : String) (hs : s ≠ "") :
    Document.create keys mc m (some s) = .ok ⟨m, truncateContent mc s⟩ := by
  have htr := truncateContent_ne_empty mc s hs
  simp [Document.create, pyFalsy, hs, htr]

/-- C8: `Document.create` fails exactly when the explicit argument is falsy
(absent or empty, per Python truthiness) and no configured candidate field
holds non-empty content; with a falsy argument the page content is the first
non-empty candidate value in `PAGE_CONTENT_KEYS` order (then truncated); a
non-empty explicit argument bypasses derivation entirely. -/
theorem create_error_iff (keys : List String) (mc : Nat) (m : Metadata)
    (pc : Option String) :
    ((∃ e, Document.create keys mc m pc = .error e) ↔
      (pyFalsy pc = true ∧ derivePageContent keys m = none)) ∧
    (pyFalsy pc = true → ∀ v, derivePageContent keys m = some v →
      Document.create keys mc m pc = .ok ⟨m, truncateContent mc v⟩) ∧
    (∀ s : String, s ≠ "" →
      Document.create keys mc m (some s) = .ok ⟨m, truncateContent mc s⟩) := by
  refine ⟨⟨?_, ?_⟩, create_ok_of_derive keys mc m pc,
    fun s hs => create_ok_of_explicit keys mc m s hs⟩
  · rintro ⟨e, he⟩
    by_cases hf : pyFalsy pc = true
    · cases hv : derivePageContent keys m with
      | none => exact ⟨hf, rfl⟩
      | some v =>
        rw [create_ok_of_derive keys mc m pc hf v hv] at he
        simp at he
    · have hex : ∃ s, pc = some s ∧ s ≠ "" := by
        cases pc with
        | none => simp [pyFalsy] at hf
        | some s => exact ⟨s, rfl, by simpa [pyFalsy] using hf⟩
      obtain ⟨s, rfl, hs⟩ := hex
      rw [create_ok_of_explicit keys mc m s hs] at he
      simp at he
  · rintro ⟨hf, hd⟩
    exact ⟨_, create_error_of_none keys mc m pc hf hd⟩

/-- C8 (witness): derivation picks the configured field and succeeds. -/
theorem create_error_iff_witness :
    Document.create ["content"] 100 [("content", "hi")] none =
      .ok ⟨[("content", "hi")], truncateContent 100 "hi"⟩ :=
  (create_error_iff ["content"] 100 [("content", "hi")] none).2.1 rfl "hi" rfl

/-- C9: explicit content longer than `MAX_CHUNK_SIZE` is truncated to exactly
`MAX_CHUNK_SIZE` characters plus a three-character ellipsis, irrespective of
word boundaries; content of length at most `MAX_CHUNK_SIZE` is unchanged. -/
theorem create_truncation (keys : List String) (mc : Nat) (m : Metadata)
    (s : String) (hs : s ≠ "") :
    Document.create keys mc m (some s) = .ok ⟨m, truncateContent mc s⟩ ∧
    (mc < s.length → truncateContent mc s = strTake s mc ++ "..." ∧
      (truncateContent mc s).length = mc + 3) ∧
    (s.length ≤ mc → truncateContent mc s = s) := by
  refine ⟨create_ok_of_explicit keys mc m s hs, ?_, ?_⟩
  · intro hlen
    have he : truncateContent mc s = strTake s mc ++ "..." := by
      unfold truncateContent
      rw [if_pos ⟨hs, hlen⟩]
    refine ⟨he, ?_⟩
    rw [he, String.length_append]
    have hd : s.length = s.data.length := rfl
    have h1 : (strTake s mc).length = mc := by
      show (s.data.take mc).length = mc
      rw [List.length_take]
      omega
    have h3 : ("..." : String).length = 3 := rfl
    omega
  · intro hlen
    unfold truncateContent
    rw [if_neg]
    rintro ⟨h1, h2⟩
    omega

/-- C9 (witness): a five-character body with a three-character limit. -/
theorem create_truncation_witness :
    Document.create [] 3 [] (some "abcde") = .ok ⟨[], truncateContent 3 "abcde"⟩ ∧
    truncateContent 3 "abcde" = strTake "abcde" 3 ++ "..." ∧
    (truncateContent 3 "abcde").length = 3 + 3 :=
  ⟨(create_truncation [] 3 [] "abcde" (by decide)).1,
   (create_truncation [] 3 [] "abcde" (by decide)).2.1 (by decide)⟩
